import Mathlib

/-!
Shallow embedding of `src/utils.ts` of the `redis-leaderboard` repository:
scaled fixed-point arithmetic (`mulBN`, `divBN`), per-position valuation
(`getEarnings`, `getROI`), per-user aggregation (`getAllPositions`,
`getAggregatedPositions`) and ranking (`getTopTen`).

Modelling conventions:
* ethers `BigNumber` values are modelled as `ℤ`; `BigNumber.div` truncates
  toward zero, modelled by `Int.tdiv`, and throws on a zero divisor;
* JavaScript `number` values are modelled as `ℚ` with exact arithmetic
  (binary-float rounding and the 2^53 safe-integer limit of
  `BigNumber.toNumber` are idealized as exact);
* the string fields `netQuantity`, `valueSold`, `valueBought` and the
  decimal strings of `outcomeTokenPrices` are modelled already parsed
  (`ℤ` resp. `ℚ`); parse failures are outside all claims below;
* a thrown JavaScript error is modelled by `Except JsError`;
* `Math.round` rounds half toward positive infinity, modelled by `jsRound`;
* an out-of-bounds array read yields `undefined`, which makes the following
  BigNumber arithmetic throw; that failure is modelled as the
  `indexOutOfRange` condition of the specification's error taxonomy;
* `_.groupBy` builds a plain object whose keys are created in order of first
  occurrence; `Object.values` enumerates canonical array-index keys first in
  ascending numeric order and the remaining keys in creation order
  (ECMAScript OrdinaryOwnPropertyKeys), modelled by `jsKeyOrder`;
* `Array.prototype.sort` sorts the array in place; the comparator used at
  lines 124-126 never returns 0, and V8's TimSort treats a comparator
  result `≥ 0` as "already in order" at every comparison site (binary
  insertion advances past residents comparing `≥ 0`, run detection keeps a
  tied adjacent pair, merges take the stability-preserving side), so the
  sort is a stable descending sort: each incoming element `x` is placed
  before the first resident `y` with `comparator(x, y) < 0` and after all
  residents comparing `≥ 0`, ties included — modelled by `jsSort`.
-/

inductive JsError where
  | divisionByZero
  | indexOutOfRange
  deriving DecidableEq, Repr

/-- Modelled from the spec: the `market` field of a raw position (the file
`interfaces.ts` declaring these record types is not under `src/`);
`outcomeTokenPrices` is the "ordered sequence of decimal-string prices
indexed by outcome", modelled already parsed as rationals. -/
structure Market where
  outcomeTokenPrices : List ℚ
  deriving DecidableEq, Repr

/-- Modelled from the spec: the `user` field of a raw position, whose `id`
is an "opaque string identity". -/
structure User where
  id : String
  deriving DecidableEq, Repr

/-- Modelled from the spec: a RawPosition record (spec section 3); the field
names follow the accesses in `utils.ts`. Amount fields are modelled already
parsed as integers. -/
structure Position where
  netQuantity : ℤ
  valueSold : ℤ
  valueBought : ℤ
  outcomeIndex : ℕ
  market : Market
  user : User
  deriving DecidableEq, Repr

/-- Modelled from the spec: a ValuatedPosition / AggregatedPosition record
(`LeaderBoardPosition` in the source's `interfaces.ts`, which is not under
`src/`): `user`, `earnings`, `invested`, `roi`; the numeric fields are
JavaScript numbers, modelled as `ℚ`. -/
structure LeaderBoardPosition where
  user : String
  earnings : ℚ
  invested : ℚ
  roi : ℚ
  deriving DecidableEq, Repr

/-- Modelled from the spec: the Leaderboard output record (`BoardData` in
the source's `interfaces.ts`). -/
structure BoardData where
  leaderBoardPositions : List LeaderBoardPosition
  deriving DecidableEq, Repr

/-- JavaScript `Math.round`: rounds half toward positive infinity. -/
def jsRound (q : ℚ) : ℤ := ⌊q + 1 / 2⌋

/-- `mulBN` (utils.ts lines 12-14): `a.mul(Math.round(b * scale)).div(scale)`.
ethers `div` truncates toward zero. `scale` defaults to 10000 in the source;
every call site in the source uses the default, passed explicitly here. -/
def mulBN (a : ℤ) (b : ℚ) (scale : ℤ) : ℤ :=
  Int.tdiv (a * jsRound (b * (scale : ℚ))) scale

/-- `divBN` (utils.ts lines 22-24): `a.mul(scale).div(b).toNumber() / scale`.
ethers `div` throws on a zero divisor (the DivisionByZero condition). -/
def divBN (a b scale : ℤ) : Except JsError ℚ :=
  if b = 0 then .error .divisionByZero
  else .ok ((Int.tdiv (a * scale) b : ℚ) / (scale : ℚ))

/-- The price lookup `position.market.outcomeTokenPrices[position.outcomeIndex]`
(utils.ts lines 32-34 and 47-49): an out-of-bounds index reads `undefined`,
which makes the subsequent BigNumber arithmetic throw; modelled as the
IndexOutOfRange condition of the spec's taxonomy. -/
def lookupPrice (position : Position) : Except JsError ℚ :=
  match position.market.outcomeTokenPrices.get? position.outcomeIndex with
  | some q => .ok q
  | none => .error .indexOutOfRange

/-- `getEarnings` (utils.ts lines 30-39); a pure function of its input, and
a thrown error propagates to the caller. -/
def getEarnings (position : Position) : Except JsError ℤ :=
  match lookupPrice position with
  | .error e => .error e
  | .ok outcomeTokenPrice =>
    .ok (mulBN position.netQuantity outcomeTokenPrice 10000
      + position.valueSold - position.valueBought)

/-- `getROI` (utils.ts lines 45-55); a pure function of its input, and a
thrown error propagates to the caller. -/
def getROI (position : Position) : Except JsError ℚ :=
  match lookupPrice position with
  | .error e => .error e
  | .ok outcomeTokenPrice =>
    match divBN (mulBN position.netQuantity outcomeTokenPrice 10000
        + position.valueSold - position.valueBought) position.valueBought 10000 with
    | .error e => .error e
    | .ok q => .ok (q * 100)

/-- The body of the `forEach` loop in `getAllPositions` (utils.ts lines
64-75): valuate one raw position. -/
def valuatePosition (position : Position) : Except JsError LeaderBoardPosition :=
  match getEarnings position with
  | .error e => .error e
  | .ok earnings =>
    match getROI position with
    | .error e => .error e
    | .ok roi =>
      .ok { user := position.user.id
            earnings := (earnings : ℚ)
            invested := (position.valueBought : ℚ)
            roi := roi }

/-- `getAllPositions` (utils.ts lines 62-77): valuate each position in input
order; a throw inside the `forEach` propagates and aborts the whole call
(the partially built array is discarded), so the call either returns one
record per input position or fails. -/
def getAllPositions : List Position → Except JsError (List LeaderBoardPosition)
  | [] => .ok []
  | position :: data =>
    match valuatePosition position with
    | .error e => .error e
    | .ok r =>
      match getAllPositions data with
      | .error e => .error e
      | .ok rs => .ok (r :: rs)

/-- Keys of the object built by `_.groupBy(allPositions, p => p.user)`
(utils.ts lines 86-89), in property creation order: each distinct `user`
string, ordered by first occurrence. -/
def firstOccKeys : List LeaderBoardPosition → List String
  | [] => []
  | p :: l => p.user :: (firstOccKeys l).filter (fun k => k != p.user)

/-- Value of a list of decimal digit characters. -/
def digitsVal (cs : List Char) : ℕ :=
  cs.foldl (fun n c => n * 10 + (c.toNat - 48)) 0

/-- A canonical decimal numeral: one digit, or a nonzero digit followed by
digits (no leading zero, no sign, no other characters). -/
def isCanonicalNumeral : List Char → Bool
  | [] => false
  | [c] => c.isDigit
  | c :: cs => c.isDigit && c != '0' && cs.all (fun d => d.isDigit)

/-- A string that is a canonical array-index property key in ECMAScript
(the canonical decimal numeral of some `n < 2^32 - 1`). -/
def isArrayIndex (s : String) : Bool :=
  isCanonicalNumeral s.data && decide (digitsVal s.data < 4294967295)

/-- Numeric value of an array-index key (0 on non-numeric keys, which are
never compared). -/
def keyNum (s : String) : ℕ := digitsVal s.data

/-- Enumeration order of `Object.values` over the groupBy object (utils.ts
line 91): canonical array-index keys first, ascending numerically, then the
remaining keys in creation order. -/
def jsKeyOrder (ks : List String) : List String :=
  List.insertionSort (fun a b => keyNum a ≤ keyNum b) (ks.filter fun k => isArrayIndex k)
    ++ ks.filter fun k => !isArrayIndex k

/-- The body of the `forEach` over `Object.values(positionsByUser)`
(utils.ts lines 91-112): take `position[0].user` and left-fold (`reduce`
with initial value 0) each numeric field over the group in input order. -/
def aggregateGroup (group : List LeaderBoardPosition) : LeaderBoardPosition :=
  { user := (group.headD ⟨"", 0, 0, 0⟩).user
    invested := group.foldl (fun t p => t + p.invested) 0
    earnings := group.foldl (fun t p => t + p.earnings) 0
    roi := group.foldl (fun t p => t + p.roi) 0 }

/-- `getAggregatedPositions` (utils.ts lines 84-114): group by `user` (each
group holds, in input order, exactly the positions with that `user`), then
aggregate each group, in the enumeration order of the groupBy object. -/
def getAggregatedPositions (allPositions : List LeaderBoardPosition) : List LeaderBoardPosition :=
  (jsKeyOrder (firstOccKeys allPositions)).map fun k =>
    aggregateGroup (allPositions.filter fun p => p.user == k)

/-- The comparator of utils.ts lines 124-126:
`(a, b) => Number(a.earnings) > Number(b.earnings) ? -1 : 1`.
It returns 1, never 0, when the two earnings are equal. -/
def cmpEarnings (a b : LeaderBoardPosition) : ℤ :=
  if b.earnings < a.earnings then -1 else 1

/-- One insertion step of the engine's comparison sort (V8 TimSort's binary
insertion): the incoming element `x` is placed before the first resident `y`
with `c x y < 0`, and after every resident that compares `≥ 0` — ties
included, so elements the comparator does not strictly order keep their
arrival order (stability). -/
def jsSortInsert (c : LeaderBoardPosition → LeaderBoardPosition → ℤ)
    (x : LeaderBoardPosition) : List LeaderBoardPosition → List LeaderBoardPosition
  | [] => [x]
  | y :: ys => if c x y < 0 then x :: y :: ys else y :: jsSortInsert c x ys

/-- `Array.prototype.sort` with comparator `c`: elements are inserted left to
right into the growing sorted prefix. -/
def jsSort (c : LeaderBoardPosition → LeaderBoardPosition → ℤ)
    (l : List LeaderBoardPosition) : List LeaderBoardPosition :=
  l.foldl (fun acc x => jsSortInsert c x acc) []

/-- Contents of the caller's array after `getTopTen` returns:
`Array.prototype.sort` (utils.ts line 124) sorts the argument array in
place, so the input array ends up holding the sorted sequence. -/
def getTopTenMutatedInput (aggregatedPositions : List LeaderBoardPosition) :
    List LeaderBoardPosition :=
  jsSort cmpEarnings aggregatedPositions

/-- `getTopTen` (utils.ts lines 121-132): sort by the comparator above, then
`slice(0, 10)` into a fresh array wrapped in a `BoardData`. -/
def getTopTen (aggregatedPositions : List LeaderBoardPosition) : BoardData :=
  { leaderBoardPositions := (getTopTenMutatedInput aggregatedPositions).take 10 }

/-- Contents of the caller's array after `getAllPositions` returns: the
function body (utils.ts lines 62-77) only reads `data`, so the array is
unchanged. -/
def getAllPositionsPost (data : List Position) : List Position := data

/-- Contents of the caller's array after `getAggregatedPositions` returns:
the function body (utils.ts lines 84-114) only reads `allPositions`, so the
array is unchanged. -/
def getAggregatedPositionsPost (l : List LeaderBoardPosition) : List LeaderBoardPosition := l

/-- The spec's own formula for `scaledMultiply` (spec section 4.1): "the
decimal `b` is converted to an integer numerator by rounding `b*scale`,
multiplied into `a`, then integer-divided by `scale`, truncating toward zero
as standard integer division does". Stated independently of `mulBN` to be
compared with it. -/
def scaledMultiplySpec (a : ℤ) (b : ℚ) (scale : ℤ) : ℤ :=
  Int.tdiv (a * jsRound (b * (scale : ℚ))) scale

/-- Order of first appearance of each string of `us`, built by a single
left-to-right pass that appends a key the first time it is seen (spec
section 4.3, "stable partition" / section 9, "built by a single pass with an
upsert-or-initialize step per record"). Stated independently of
`firstOccKeys` to be compared with it. -/
def firstOccurrenceOrder (us : List String) : List String :=
  us.foldl (fun acc u => if u ∈ acc then acc else acc ++ [u]) []
/-! ## Helper lemmas -/

/-- In-bounds price lookup succeeds with the indexed price. -/
theorem lookupPrice_ok (p : Position) (h : p.outcomeIndex < p.market.outcomeTokenPrices.length) :
    lookupPrice p = .ok (p.market.outcomeTokenPrices.get ⟨p.outcomeIndex, h⟩) := by
  unfold lookupPrice
  rw [List.get?_eq_get h]

/-- Out-of-bounds price lookup fails. -/
theorem lookupPrice_oob (p : Position) (h : p.market.outcomeTokenPrices.length ≤ p.outcomeIndex) :
    lookupPrice p = .error .indexOutOfRange := by
  unfold lookupPrice
  rw [List.get?_eq_none.mpr h]

/-- Reduction of `getROI` once the price lookup has succeeded. -/
theorem getROI_of_lookup_ok (p : Position) (price : ℚ) (hp : lookupPrice p = .ok price) :
    getROI p =
      match divBN (mulBN p.netQuantity price 10000 + p.valueSold - p.valueBought)
          p.valueBought 10000 with
      | .error e => .error e
      | .ok q => .ok (q * 100) := by
  unfold getROI
  rw [hp]

/-! ## Valuation and arithmetic claims -/

/-- Claim C1: for every raw position whose amount fields parse as large
integers and whose `outcomeIndex` is within bounds of
`market.outcomeTokenPrices`, `getEarnings` returns
`scaledMultiply(netQuantity, outcomeTokenPrice) + valueSold - valueBought`
in signed integer arithmetic (the result may be negative); determinism is
inherent in `getEarnings` being a function of the position. -/
theorem C1_getEarnings_formula (p : Position)
    (h : p.outcomeIndex < p.market.outcomeTokenPrices.length) :
    getEarnings p =
      .ok (mulBN p.netQuantity (p.market.outcomeTokenPrices.get ⟨p.outcomeIndex, h⟩) 10000
        + p.valueSold - p.valueBought) := by
  unfold getEarnings
  rw [lookupPrice_ok p h]

/-- Witness for C1 at a concrete position: netQuantity 2, price 1/2,
valueSold 3, valueBought 1. -/
theorem C1_getEarnings_formula_witness :
    getEarnings ⟨2, 3, 1, 0, ⟨[1/2]⟩, ⟨"u"⟩⟩ = .ok 3 := by
  rw [C1_getEarnings_formula ⟨2, 3, 1, 0, ⟨[1/2]⟩, ⟨"u"⟩⟩ (by decide)]
  norm_num [mulBN, jsRound]

/-- Claim C2: for every raw position with an in-bounds `outcomeIndex`,
`getROI` returns `scaledDivide(earnings, valueBought) * 100` where
`earnings = scaledMultiply(netQuantity, outcomeTokenPrice) + valueSold -
valueBought`; when `valueBought` is zero this fails with the DivisionByZero
condition, propagated and never converted to zero or infinity. -/
theorem C2_getROI_divzero_and_formula (p : Position)
    (h : p.outcomeIndex < p.market.outcomeTokenPrices.length) :
    getROI p =
      (divBN (mulBN p.netQuantity (p.market.outcomeTokenPrices.get ⟨p.outcomeIndex, h⟩) 10000
          + p.valueSold - p.valueBought) p.valueBought 10000).map (fun q => q * 100)
    ∧ (p.valueBought = 0 → getROI p = .error .divisionByZero) := by
  constructor
  · rw [getROI_of_lookup_ok p _ (lookupPrice_ok p h)]
    cases hd : divBN (mulBN p.netQuantity (p.market.outcomeTokenPrices.get ⟨p.outcomeIndex, h⟩) 10000
        + p.valueSold - p.valueBought) p.valueBought 10000 <;> rfl
  · intro h0
    rw [getROI_of_lookup_ok p _ (lookupPrice_ok p h)]
    have hd : divBN (mulBN p.netQuantity (p.market.outcomeTokenPrices.get ⟨p.outcomeIndex, h⟩) 10000
        + p.valueSold - p.valueBought) p.valueBought 10000 = .error .divisionByZero := by
      unfold divBN
      rw [if_pos h0]
    rw [hd]

/-- Witness for C2: a position with `valueBought = 0` fails with
DivisionByZero, and one with `valueBought = 1` returns the scaled quotient
times 100. -/
theorem C2_getROI_divzero_and_formula_witness :
    getROI ⟨2, 3, 0, 0, ⟨[1/2]⟩, ⟨"u"⟩⟩ = .error .divisionByZero
    ∧ getROI ⟨2, 3, 1, 0, ⟨[1/2]⟩, ⟨"u"⟩⟩ = .ok 300 := by
  constructor
  · exact (C2_getROI_divzero_and_formula ⟨2, 3, 0, 0, ⟨[1/2]⟩, ⟨"u"⟩⟩ (by decide)).2 rfl
  · rw [(C2_getROI_divzero_and_formula ⟨2, 3, 1, 0, ⟨[1/2]⟩, ⟨"u"⟩⟩ (by decide)).1]
    norm_num [mulBN, jsRound, divBN, Except.map]

/-- Claim C6: `scaledMultiply(a, b, scale)` equals
`a * round(b * scale) / scale` with integer-only intermediates and
truncating integer division (the spec-side formula `scaledMultiplySpec`),
and in particular `scaledMultiply(1000000, 0.0001)` with the default scale
10000 returns 100. -/
theorem C6_mulBN_matches_spec :
    (∀ (a : ℤ) (b : ℚ) (scale : ℤ), 0 < scale → mulBN a b scale = scaledMultiplySpec a b scale)
    ∧ mulBN 1000000 (1 / 10000) 10000 = 100 := by
  refine ⟨fun _ _ _ _ => rfl, ?_⟩
  norm_num [mulBN, jsRound]
  decide

/-- Witness for C6 at `a = 7`, `b = 3/2`, `scale = 10`. -/
theorem C6_mulBN_matches_spec_witness :
    mulBN 7 (3 / 2) 10 = scaledMultiplySpec 7 (3 / 2) 10 :=
  C6_mulBN_matches_spec.1 7 (3 / 2) 10 (by decide)

/-- Claim C7: for every raw position whose `outcomeIndex` is outside the
bounds of `market.outcomeTokenPrices`, both `getEarnings` and `getROI` fail
with the IndexOutOfRange condition, which is returned as-is (never
recovered into a value). -/
theorem C7_index_out_of_range (p : Position)
    (h : p.market.outcomeTokenPrices.length ≤ p.outcomeIndex) :
    getEarnings p = .error .indexOutOfRange ∧ getROI p = .error .indexOutOfRange := by
  constructor
  · unfold getEarnings
    rw [lookupPrice_oob p h]
  · unfold getROI
    rw [lookupPrice_oob p h]

/-- Witness for C7: a position indexing entry 1 of a one-price market. -/
theorem C7_index_out_of_range_witness :
    getEarnings ⟨2, 3, 1, 1, ⟨[1/2]⟩, ⟨"u"⟩⟩ = .error .indexOutOfRange
    ∧ getROI ⟨2, 3, 1, 1, ⟨[1/2]⟩, ⟨"u"⟩⟩ = .error .indexOutOfRange :=
  C7_index_out_of_range ⟨2, 3, 1, 1, ⟨[1/2]⟩, ⟨"u"⟩⟩ (by decide)

/-! ## Sorting lemmas -/

/-- `List.filter` over a cons, written as an append. -/
theorem filter_cons_append (p : LeaderBoardPosition → Bool) (a : LeaderBoardPosition)
    (l : List LeaderBoardPosition) :
    List.filter p (a :: l) = (if p a then [a] else []) ++ List.filter p l := by
  by_cases h : p a <;> simp [h]

/-- Inserting an element is a permutation of pushing it in front. -/
theorem jsSortInsert_perm (c : LeaderBoardPosition → LeaderBoardPosition → ℤ)
    (x : LeaderBoardPosition) :
    ∀ l : List LeaderBoardPosition, (jsSortInsert c x l).Perm (x :: l)
  | [] => List.Perm.refl _
  | y :: ys => by
    unfold jsSortInsert
    by_cases h : c x y < 0
    · rw [if_pos h]
    · rw [if_neg h]
      exact ((jsSortInsert_perm c x ys).cons y).trans (List.Perm.swap x y ys)

/-- The sort's fold is a permutation of input plus accumulator. -/
theorem jsSort_foldl_perm (c : LeaderBoardPosition → LeaderBoardPosition → ℤ) :
    ∀ (l acc : List LeaderBoardPosition),
      (l.foldl (fun a x => jsSortInsert c x a) acc).Perm (l ++ acc)
  | [], acc => by simp
  | x :: l, acc => by
    simp only [List.foldl_cons]
    refine (jsSort_foldl_perm c l (jsSortInsert c x acc)).trans ?_
    refine (List.Perm.append_left l (jsSortInsert_perm c x acc)).trans ?_
    exact List.perm_middle

/-- `jsSort` permutes its input. -/
theorem jsSort_perm (c : LeaderBoardPosition → LeaderBoardPosition → ℤ)
    (l : List LeaderBoardPosition) : (jsSort c l).Perm l := by
  have h := jsSort_foldl_perm c l []
  simpa [jsSort] using h

/-- The comparator applied as `cmpEarnings x y` is negative exactly when the
incoming `x` strictly out-earns the resident `y`; on ties it returns 1. -/
theorem cmpEarnings_neg_iff (x y : LeaderBoardPosition) :
    cmpEarnings x y < 0 ↔ y.earnings < x.earnings := by
  unfold cmpEarnings
  split
  next hlt => exact iff_of_true (by decide) hlt
  next hnlt => exact iff_of_false (by decide) hnlt

/-- Inserting into a non-increasing list keeps it non-increasing. -/
theorem jsSortInsert_pairwise (x : LeaderBoardPosition) :
    ∀ l : List LeaderBoardPosition,
      List.Pairwise (fun a b => b.earnings ≤ a.earnings) l →
      List.Pairwise (fun a b => b.earnings ≤ a.earnings) (jsSortInsert cmpEarnings x l)
  | [], _ => by simp [jsSortInsert]
  | y :: ys, hl => by
    rcases List.pairwise_cons.mp hl with ⟨hy, hys⟩
    unfold jsSortInsert
    by_cases h : cmpEarnings x y < 0
    · rw [if_pos h]
      have hxy : y.earnings < x.earnings := (cmpEarnings_neg_iff x y).mp h
      refine List.Pairwise.cons ?_ hl
      intro z hz
      rcases List.mem_cons.mp hz with rfl | hz'
      · exact le_of_lt hxy
      · exact le_trans (hy z hz') (le_of_lt hxy)
    · rw [if_neg h]
      have hyx : x.earnings ≤ y.earnings :=
        le_of_not_lt (fun hlt => h ((cmpEarnings_neg_iff x y).mpr hlt))
      refine List.Pairwise.cons ?_ (jsSortInsert_pairwise x ys hys)
      intro z hz
      rcases List.mem_cons.mp ((jsSortInsert_perm cmpEarnings x ys).mem_iff.mp hz) with rfl | hz'
      · exact hyx
      · exact hy z hz'

/-- The sort's fold preserves sortedness of the accumulator. -/
theorem jsSort_foldl_pairwise :
    ∀ (l acc : List LeaderBoardPosition),
      List.Pairwise (fun a b => b.earnings ≤ a.earnings) acc →
      List.Pairwise (fun a b => b.earnings ≤ a.earnings)
        (l.foldl (fun a x => jsSortInsert cmpEarnings x a) acc)
  | [], _, h => h
  | x :: l, acc, h => by
    simp only [List.foldl_cons]
    exact jsSort_foldl_pairwise l _ (jsSortInsert_pairwise x acc h)

/-- The sorted array is non-increasing in earnings. -/
theorem jsSort_pairwise (l : List LeaderBoardPosition) :
    List.Pairwise (fun a b => b.earnings ≤ a.earnings) (jsSort cmpEarnings l) :=
  jsSort_foldl_pairwise l [] (by simp)

/-- Inserting into a non-increasing list places the incoming element after
every resident with the same earnings: on the elements with earnings `q`,
insertion appends (stability). -/
theorem jsSortInsert_filter (q : ℚ) (x : LeaderBoardPosition) :
    ∀ l : List LeaderBoardPosition,
      List.Pairwise (fun a b => b.earnings ≤ a.earnings) l →
      (jsSortInsert cmpEarnings x l).filter (fun p => p.earnings == q)
        = l.filter (fun p => p.earnings == q) ++ (if x.earnings == q then [x] else [])
  | [], _ => by
    simpa [jsSortInsert] using filter_cons_append (fun p => p.earnings == q) x []
  | y :: ys, hl => by
    rcases List.pairwise_cons.mp hl with ⟨hy, hys⟩
    unfold jsSortInsert
    by_cases h : cmpEarnings x y < 0
    · rw [if_pos h, filter_cons_append _ x (y :: ys)]
      by_cases hx : (x.earnings == q) = true
      · have hq : x.earnings = q := by simpa using hx
        have hxy : y.earnings < x.earnings := (cmpEarnings_neg_iff x y).mp h
        have hlt' : ∀ z ∈ y :: ys, z.earnings < q := by
          intro z hz
          rcases List.mem_cons.mp hz with rfl | hz'
          · exact hq ▸ hxy
          · exact lt_of_le_of_lt (hy z hz') (hq ▸ hxy)
        have hnil : (y :: ys).filter (fun p => p.earnings == q) = [] :=
          List.filter_eq_nil_iff.mpr fun z hz => by
            simp only [beq_iff_eq]
            exact ne_of_lt (hlt' z hz)
        rw [hnil]
        simp
      · simp [hx]
    · rw [if_neg h, filter_cons_append _ y (jsSortInsert cmpEarnings x ys),
        jsSortInsert_filter q x ys hys, filter_cons_append _ y ys, List.append_assoc]

/-- Over the fold, the elements with earnings `q` keep their input order
(each insertion appends to the tied block): the sort is stable on ties. -/
theorem jsSort_foldl_filter (q : ℚ) :
    ∀ (l acc : List LeaderBoardPosition),
      List.Pairwise (fun a b => b.earnings ≤ a.earnings) acc →
      (l.foldl (fun a x => jsSortInsert cmpEarnings x a) acc).filter (fun p => p.earnings == q)
        = acc.filter (fun p => p.earnings == q) ++ l.filter (fun p => p.earnings == q)
  | [], acc, _ => by simp
  | x :: l, acc, hacc => by
    simp only [List.foldl_cons]
    rw [jsSort_foldl_filter q l (jsSortInsert cmpEarnings x acc)
        (jsSortInsert_pairwise x acc hacc),
      jsSortInsert_filter q x acc hacc, filter_cons_append _ x, List.append_assoc]

/-! ## Ranking claims -/

/-- Claim C3: for every input list of aggregated records, `getTopTen`
returns a leaderboard sorted by earnings non-increasing whose length is
`min(10, number of records)`; an empty input yields an empty leaderboard,
and `getTopTen` (a total function here) raises no error. -/
theorem C3_getTopTen_sorted_length :
    (∀ l : List LeaderBoardPosition,
        (getTopTen l).leaderBoardPositions.length = min 10 l.length
        ∧ List.Pairwise (fun a b => b.earnings ≤ a.earnings)
            (getTopTen l).leaderBoardPositions)
    ∧ (getTopTen []).leaderBoardPositions = [] := by
  refine ⟨fun l => ⟨?_, ?_⟩, rfl⟩
  · simp only [getTopTen, getTopTenMutatedInput]
    rw [List.length_take, (jsSort_perm cmpEarnings l).length_eq]
  · simp only [getTopTen, getTopTenMutatedInput]
    exact List.Pairwise.sublist (List.take_sublist _ _) (jsSort_pairwise l)

/-- Claim C8: for every input containing records with exactly equal
earnings, `getTopTen`'s order between them is deterministic for a given
input ordering (the model is a function of the input) and preserves the
aggregator's output order — a stable sort: on the subsequence of records
with any fixed earnings value the sort is the identity, and ties are not
broken by any secondary key. The board is the first ten entries of the
sorted sequence. -/
theorem C8_ties_stable :
    (∀ (l : List LeaderBoardPosition) (q : ℚ),
        (getTopTenMutatedInput l).filter (fun p => p.earnings == q)
          = l.filter (fun p => p.earnings == q))
    ∧ ∀ l : List LeaderBoardPosition,
        (getTopTen l).leaderBoardPositions = (getTopTenMutatedInput l).take 10 := by
  refine ⟨fun l q => ?_, fun _ => rfl⟩
  have h := jsSort_foldl_filter q l [] (by simp)
  simpa [getTopTenMutatedInput, jsSort] using h

/-- Counterexample for C9: `getTopTen` does not leave its input sequence
unchanged — `Array.prototype.sort` reorders the caller's array in place. -/
theorem C9_input_mutated_cex :
    getTopTenMutatedInput [⟨"a", 1, 0, 0⟩, ⟨"b", 2, 0, 0⟩]
      ≠ [⟨"a", 1, 0, 0⟩, ⟨"b", 2, 0, 0⟩] := by decide

/-- Claim C9, amended: `getAllPositions` and `getAggregatedPositions` leave
their input sequences unchanged and build new output sequences, but
`getTopTen` sorts the aggregated array it is given in place: after the call
the input array holds a permutation of its elements (sorted by earnings),
and the returned board is a fresh `slice` of the first ten entries. -/
theorem C9_stage_frame_effects :
    (∀ data : List Position, getAllPositionsPost data = data)
    ∧ (∀ l : List LeaderBoardPosition, getAggregatedPositionsPost l = l)
    ∧ ∀ l : List LeaderBoardPosition,
        (getTopTenMutatedInput l).Perm l
        ∧ (getTopTen l).leaderBoardPositions = (getTopTenMutatedInput l).take 10 :=
  ⟨fun _ => rfl, fun _ => rfl, fun l => ⟨jsSort_perm cmpEarnings l, rfl⟩⟩

/-! ## Grouping lemmas -/

/-- A string is a groupBy key exactly when it is some position's user. -/
theorem mem_firstOccKeys (k : String) :
    ∀ l : List LeaderBoardPosition, k ∈ firstOccKeys l ↔ k ∈ l.map (·.user)
  | [] => by simp [firstOccKeys]
  | p :: l => by
    simp only [firstOccKeys, List.mem_cons, List.mem_filter, bne_iff_ne, List.map_cons,
      mem_firstOccKeys k l]
    by_cases h : k = p.user <;> simp [h]

/-- The groupBy keys are distinct. -/
theorem nodup_firstOccKeys : ∀ l : List LeaderBoardPosition, (firstOccKeys l).Nodup
  | [] => List.nodup_nil
  | p :: l => by
    simp only [firstOccKeys, List.nodup_cons]
    refine ⟨fun hmem => ?_, (nodup_firstOccKeys l).filter _⟩
    rcases List.mem_filter.mp hmem with ⟨-, hne⟩
    simp at hne

/-- `Object.values` enumeration permutes the creation-ordered keys. -/
theorem jsKeyOrder_perm (ks : List String) : (jsKeyOrder ks).Perm ks := by
  unfold jsKeyOrder
  exact ((List.perm_insertionSort _ _).append_right _).trans (List.filter_append_perm _ ks)

/-- The head of a nonempty filtered list satisfies the filter. -/
theorem filter_headD_pred (p : LeaderBoardPosition → Bool) (l : List LeaderBoardPosition)
    (d : LeaderBoardPosition) (h : l.filter p ≠ []) : p ((l.filter p).headD d) = true := by
  cases hl : l.filter p with
  | nil => exact absurd hl h
  | cons a t =>
    have ha : a ∈ l.filter p := by
      rw [hl]
      exact List.mem_cons_self a t
    exact (List.mem_filter.mp ha).2

/-- Each aggregated record carries its group's key as `user`
(`position[0].user` in the source). -/
theorem aggregateGroup_user (l : List LeaderBoardPosition) (k : String)
    (hk : k ∈ jsKeyOrder (firstOccKeys l)) :
    (aggregateGroup (l.filter fun p => p.user == k)).user = k := by
  have hk' : k ∈ firstOccKeys l := (jsKeyOrder_perm (firstOccKeys l)).mem_iff.mp hk
  rcases List.mem_map.mp ((mem_firstOccKeys k l).mp hk') with ⟨p, hp, hpu⟩
  have hpf : p ∈ l.filter (fun p => p.user == k) :=
    List.mem_filter.mpr ⟨hp, by simp [hpu]⟩
  have hne : l.filter (fun p => p.user == k) ≠ [] := List.ne_nil_of_mem hpf
  have hpred := filter_headD_pred (fun p => p.user == k) l ⟨"", 0, 0, 0⟩ hne
  simpa [aggregateGroup, beq_iff_eq] using hpred

/-- The users of the aggregated output are exactly the enumerated keys. -/
theorem getAggregatedPositions_users (l : List LeaderBoardPosition) :
    (getAggregatedPositions l).map (·.user) = jsKeyOrder (firstOccKeys l) := by
  unfold getAggregatedPositions
  rw [List.map_map]
  have h : ∀ k ∈ jsKeyOrder (firstOccKeys l),
      ((fun x => x.user) ∘ fun k => aggregateGroup (l.filter fun p => p.user == k)) k = id k :=
    fun k hk => aggregateGroup_user l k hk
  rw [List.map_congr_left h, List.map_id]

/-- The source's `reduce((t, x) => t + f x, 0)` is `init` plus a list sum. -/
theorem foldl_add_map (f : LeaderBoardPosition → ℚ) :
    ∀ (g : List LeaderBoardPosition) (init : ℚ),
      g.foldl (fun t p => t + f p) init = init + (g.map f).sum
  | [], init => by simp
  | p :: g, init => by
    simp only [List.foldl_cons, List.map_cons, List.sum_cons]
    rw [foldl_add_map f g (init + f p)]
    ring

/-- Summing a pointwise sum splits. -/
theorem sum_map_add (K : List String) (f g : String → ℚ) :
    (K.map fun k => f k + g k).sum = (K.map f).sum + (K.map g).sum := by
  induction K with
  | nil => simp
  | cons k K ih =>
    simp only [List.map_cons, List.sum_cons, ih]
    ring

/-- A sum of indicator terms over a list avoiding the index is zero. -/
theorem sum_map_ite_zero (a : String) (c : ℚ) :
    ∀ K : List String, a ∉ K → (K.map fun k => if a = k then c else 0).sum = 0
  | [], _ => by simp
  | k :: K, ha => by
    have h1 : a ≠ k := fun h => ha (h ▸ List.mem_cons_self k K)
    have h2 : a ∉ K := fun h => ha (List.mem_cons_of_mem k h)
    simp only [List.map_cons, List.sum_cons, if_neg h1, sum_map_ite_zero a c K h2, add_zero]

/-- A sum of indicator terms over a duplicate-free list containing the index
once is the indicated value. -/
theorem sum_map_ite_single (a : String) (c : ℚ) :
    ∀ K : List String, K.Nodup → a ∈ K → (K.map fun k => if a = k then c else 0).sum = c
  | [], _, ha => absurd ha (List.not_mem_nil a)
  | k :: K, hnd, ha => by
    rw [List.nodup_cons] at hnd
    simp only [List.map_cons, List.sum_cons]
    rcases List.mem_cons.mp ha with rfl | hmem
    · rw [if_pos rfl, sum_map_ite_zero a c K hnd.1, add_zero]
    · have hak : a ≠ k := fun h => hnd.1 (h ▸ hmem)
      rw [if_neg hak, sum_map_ite_single a c K hnd.2 hmem, zero_add]

/-- Filtering by each key of a duplicate-free covering key list partitions
the list: the group sums add up to the total sum. -/
theorem sum_filter_partition (f : LeaderBoardPosition → ℚ) :
    ∀ (l : List LeaderBoardPosition) (K : List String), K.Nodup →
      (∀ p ∈ l, p.user ∈ K) →
      (K.map fun k => ((l.filter fun p => p.user == k).map f).sum).sum = (l.map f).sum
  | [], K, _, _ => by simp
  | p :: l, K, hnd, hcov => by
    have hcov' : ∀ q ∈ l, q.user ∈ K := fun q hq => hcov q (List.mem_cons_of_mem p hq)
    have hstep : ∀ k : String,
        (((p :: l).filter fun r => r.user == k).map f).sum
          = (if p.user = k then f p else 0) + ((l.filter fun r => r.user == k).map f).sum := by
      intro k
      by_cases h : p.user = k
      · simp [List.filter_cons, h]
      · simp [List.filter_cons, h]
    calc (K.map fun k => (((p :: l).filter fun r => r.user == k).map f).sum).sum
        = (K.map fun k => (if p.user = k then f p else 0)
            + ((l.filter fun r => r.user == k).map f).sum).sum :=
          congrArg List.sum (List.map_congr_left fun k _ => hstep k)
      _ = (K.map fun k => if p.user = k then f p else 0).sum
            + (K.map fun k => ((l.filter fun r => r.user == k).map f).sum).sum :=
          sum_map_add K _ _
      _ = f p + (l.map f).sum := by
          rw [sum_map_ite_single p.user (f p) K hnd (hcov p (List.mem_cons_self p l)),
            sum_filter_partition f l K hnd hcov']
      _ = ((p :: l).map f).sum := by simp

/-! ## Aggregation claims -/

/-- Claim C4: aggregation produces exactly one record per distinct user (no
user dropped or duplicated), and the total invested is conserved: the sum of
`invested` over the aggregated output equals its sum over the valuated
input. -/
theorem C4_aggregation_partition_conservation :
    ∀ l : List LeaderBoardPosition,
      ((getAggregatedPositions l).map (·.user)).Nodup
      ∧ (∀ u : String, u ∈ (getAggregatedPositions l).map (·.user) ↔ u ∈ l.map (·.user))
      ∧ ((getAggregatedPositions l).map (·.invested)).sum = (l.map (·.invested)).sum := by
  intro l
  have husers := getAggregatedPositions_users l
  have hperm := jsKeyOrder_perm (firstOccKeys l)
  refine ⟨?_, ?_, ?_⟩
  · rw [husers]
    exact hperm.nodup_iff.mpr (nodup_firstOccKeys l)
  · intro u
    rw [husers, hperm.mem_iff]
    exact mem_firstOccKeys u l
  · unfold getAggregatedPositions
    rw [List.map_map]
    have h1 : ∀ k ∈ jsKeyOrder (firstOccKeys l),
        ((fun x => x.invested) ∘ fun k => aggregateGroup (l.filter fun p => p.user == k)) k
          = ((l.filter fun p => p.user == k).map (·.invested)).sum := by
      intro k _
      simp only [Function.comp, aggregateGroup]
      rw [foldl_add_map (·.invested) (l.filter fun p => p.user == k) 0, zero_add]
    rw [List.map_congr_left h1, List.Perm.sum_eq (hperm.map _)]
    exact sum_filter_partition (·.invested) l (firstOccKeys l) (nodup_firstOccKeys l)
      (fun p hp => (mem_firstOccKeys p.user l).mpr (List.mem_map_of_mem (·.user) hp))

/-- Claim C5: every aggregated record's `invested`, `earnings` and `roi`
are the plain unweighted sums of the corresponding fields over its user's
group members — in particular `roi` is a sum of per-position ROI
percentages, not an investment-weighted average. -/
theorem C5_aggregated_fields_are_sums :
    ∀ (l : List LeaderBoardPosition) (r : LeaderBoardPosition),
      r ∈ getAggregatedPositions l →
        r.invested = ((l.filter fun p => p.user == r.user).map (·.invested)).sum
        ∧ r.earnings = ((l.filter fun p => p.user == r.user).map (·.earnings)).sum
        ∧ r.roi = ((l.filter fun p => p.user == r.user).map (·.roi)).sum := by
  intro l r hr
  unfold getAggregatedPositions at hr
  rcases List.mem_map.mp hr with ⟨k, hk, rfl⟩
  rw [aggregateGroup_user l k hk]
  refine ⟨?_, ?_, ?_⟩ <;>
    simp only [aggregateGroup] <;>
    rw [foldl_add_map _ (l.filter fun p => p.user == k) 0, zero_add]

/-- A successful `getAllPositions` valuates positions pointwise, in order. -/
theorem getAllPositions_ok_forall₂ :
    ∀ (data : List Position) (out : List LeaderBoardPosition),
      getAllPositions data = .ok out →
      List.Forall₂ (fun p r => valuatePosition p = .ok r) data out
  | [], out, h => by
    simp only [getAllPositions, Except.ok.injEq] at h
    rw [← h]
    exact List.Forall₂.nil
  | p :: data, out, h => by
    simp only [getAllPositions] at h
    cases hv : valuatePosition p with
    | error e => simp [hv] at h
    | ok r =>
      simp only [hv] at h
      cases hrest : getAllPositions data with
      | error e => simp [hrest] at h
      | ok rs =>
        simp only [hrest, Except.ok.injEq] at h
        rw [← h]
        exact List.Forall₂.cons hv (getAllPositions_ok_forall₂ data rs hrest)

/-- A successfully valuated record carries the position's `user.id`. -/
theorem valuatePosition_user (p : Position) (r : LeaderBoardPosition)
    (h : valuatePosition p = .ok r) : r.user = p.user.id := by
  unfold valuatePosition at h
  cases he : getEarnings p with
  | error e => simp [he] at h
  | ok earnings =>
    cases hr : getROI p with
    | error e => simp [he, hr] at h
    | ok roi =>
      simp only [he, hr, Except.ok.injEq] at h
      rw [← h]

/-- Without array-index keys, `Object.values` enumerates in creation order. -/
theorem jsKeyOrder_no_index (ks : List String) (h : ∀ k ∈ ks, isArrayIndex k = false) :
    jsKeyOrder ks = ks := by
  unfold jsKeyOrder
  have h1 : (ks.filter fun k => isArrayIndex k) = [] :=
    List.filter_eq_nil_iff.mpr (fun k hk => by simp [h k hk])
  have h2 : (ks.filter fun k => !isArrayIndex k) = ks :=
    List.filter_eq_self.mpr (fun k hk => by simp [h k hk])
  rw [h1, h2]
  simp [List.insertionSort]

/-- The single left-to-right upsert pass of the spec computes, modulo an
accumulator of already-present keys, the groupBy creation order. -/
theorem firstOcc_foldl :
    ∀ (l : List LeaderBoardPosition) (acc : List String),
      (l.map (·.user)).foldl (fun a u => if u ∈ a then a else a ++ [u]) acc
        = acc ++ (firstOccKeys l).filter (fun k => !decide (k ∈ acc))
  | [], acc => by simp [firstOccKeys]
  | p :: l, acc => by
    simp only [List.map_cons, List.foldl_cons, firstOccKeys]
    by_cases h : p.user ∈ acc
    · rw [if_pos h, firstOcc_foldl l acc]
      congr 1
      rw [List.filter_cons]
      have hc : (!decide (p.user ∈ acc)) = false := by simp [h]
      rw [hc]
      simp only [Bool.false_eq_true, if_false, List.filter_filter]
      refine (List.filter_congr fun k _ => ?_).symm
      by_cases h1 : k ∈ acc
      · simp [h1]
      · by_cases h2 : k = p.user
        · exact absurd (h2.symm ▸ h) h1
        · simp [h1, h2]
    · rw [if_neg h, firstOcc_foldl l (acc ++ [p.user])]
      rw [List.filter_cons]
      have hc : (!decide (p.user ∈ acc)) = true := by simp [h]
      rw [hc]
      simp only [if_true, List.filter_filter, List.append_assoc, List.singleton_append]
      congr 2
      refine List.filter_congr fun k _ => ?_
      by_cases h1 : k ∈ acc <;> by_cases h2 : k = p.user <;>
        simp [h1, h2, List.mem_append]

/-- The groupBy creation order is the order of first appearance of each
user (the spec-side single-pass construction). -/
theorem firstOcc_eq_order (l : List LeaderBoardPosition) :
    firstOccurrenceOrder (l.map (·.user)) = firstOccKeys l := by
  unfold firstOccurrenceOrder
  rw [firstOcc_foldl l []]
  simp

/-- Witness for C5: the list with one position for user "u"; the aggregated
record's fields are the group sums. -/
theorem C5_aggregated_fields_are_sums_witness :
    (⟨"u", 1, 2, 3⟩ : LeaderBoardPosition).invested
        = ((([⟨"u", 1, 2, 3⟩] : List LeaderBoardPosition).filter
            fun p => p.user == (⟨"u", 1, 2, 3⟩ : LeaderBoardPosition).user).map (·.invested)).sum
    ∧ (⟨"u", 1, 2, 3⟩ : LeaderBoardPosition).earnings
        = ((([⟨"u", 1, 2, 3⟩] : List LeaderBoardPosition).filter
            fun p => p.user == (⟨"u", 1, 2, 3⟩ : LeaderBoardPosition).user).map (·.earnings)).sum
    ∧ (⟨"u", 1, 2, 3⟩ : LeaderBoardPosition).roi
        = ((([⟨"u", 1, 2, 3⟩] : List LeaderBoardPosition).filter
            fun p => p.user == (⟨"u", 1, 2, 3⟩ : LeaderBoardPosition).user).map (·.roi)).sum :=
  C5_aggregated_fields_are_sums [⟨"u", 1, 2, 3⟩] ⟨"u", 1, 2, 3⟩ (by
    have hu : isArrayIndex "u" = false := by decide
    have h : getAggregatedPositions [⟨"u", 1, 2, 3⟩] = [⟨"u", 1, 2, 3⟩] := by
      simp [getAggregatedPositions, jsKeyOrder, firstOccKeys, hu, List.insertionSort,
        aggregateGroup, List.filter]
    rw [h]
    exact List.mem_singleton.mpr rfl)

/-- Counterexample for C10: with users "2" and "1" (canonical array-index
strings), the aggregated records do not come out in first-occurrence order
("2" first): JavaScript object enumeration puts integer-like keys first in
ascending numeric order, so "1" precedes "2". -/
theorem C10_aggregation_order_cex :
    (getAggregatedPositions [⟨"2", 1, 1, 1⟩, ⟨"1", 2, 2, 2⟩]).map (·.user) = ["1", "2"]
    ∧ (getAggregatedPositions [⟨"2", 1, 1, 1⟩, ⟨"1", 2, 2, 2⟩]).map (·.user) ≠ ["2", "1"] := by
  rw [getAggregatedPositions_users]
  exact ⟨by decide, by decide⟩

/-- Claim C10, amended: a successful `getAllPositions` returns exactly one
valuated record per input position, in input order, each record's `user`
being that position's `user.id`; and `getAggregatedPositions` lists its
per-user records in order of each user's first occurrence provided no user
id is a canonical array-index string (for such ids, JavaScript object key
enumeration places them first, in ascending numeric order, as the
counterexample shows). -/
theorem C10_valuation_shape_and_aggregation_order :
    (∀ (data : List Position) (out : List LeaderBoardPosition),
        getAllPositions data = .ok out →
          List.Forall₂ (fun p r => valuatePosition p = .ok r) data out
          ∧ out.length = data.length
          ∧ ∀ (i : ℕ) (hd : i < data.length) (ho : i < out.length),
              (out.get ⟨i, ho⟩).user = (data.get ⟨i, hd⟩).user.id)
    ∧ ∀ l : List LeaderBoardPosition, (∀ p ∈ l, isArrayIndex p.user = false) →
        (getAggregatedPositions l).map (·.user) = firstOccurrenceOrder (l.map (·.user)) := by
  constructor
  · intro data out h
    have hf := getAllPositions_ok_forall₂ data out h
    refine ⟨hf, hf.length_eq.symm, fun i hd ho => ?_⟩
    exact valuatePosition_user _ _ (hf.get hd ho)
  · intro l hno
    have hkeys : ∀ k ∈ firstOccKeys l, isArrayIndex k = false := by
      intro k hk
      rcases List.mem_map.mp ((mem_firstOccKeys k l).mp hk) with ⟨p, hp, hpu⟩
      exact hpu ▸ hno p hp
    rw [getAggregatedPositions_users l, jsKeyOrder_no_index (firstOccKeys l) hkeys]
    exact (firstOcc_eq_order l).symm

/-- Witness for C10's amended claim: a one-position list valuates to one
record with the position's user id, and a two-user list with non-numeric
ids aggregates in first-occurrence order. -/
theorem C10_valuation_shape_and_aggregation_order_witness :
    List.Forall₂ (fun p r => valuatePosition p = .ok r)
      [(⟨0, 3, 1, 0, ⟨[1/2]⟩, ⟨"u"⟩⟩ : Position)] [(⟨"u", 2, 1, 200⟩ : LeaderBoardPosition)]
    ∧ (getAggregatedPositions [⟨"b", 1, 1, 1⟩, ⟨"a", 2, 2, 2⟩]).map (·.user)
        = firstOccurrenceOrder
            (([⟨"b", 1, 1, 1⟩, ⟨"a", 2, 2, 2⟩] : List LeaderBoardPosition).map (·.user)) := by
  constructor
  · refine (C10_valuation_shape_and_aggregation_order.1 _ _ ?_).1
    simp [getAllPositions, valuatePosition, getEarnings, getROI, lookupPrice, divBN, mulBN]
    norm_num
  · exact C10_valuation_shape_and_aggregation_order.2 _ (by decide)
